import Mathlib

/-!
Verification of the sensAI hyperparameter-search core (`src/sensai/hyperopt.py`)
against its natural-language specification.

The Python module is shallowly embedded below.  Python dictionaries are
represented as association lists (`List (K × V)`) in insertion order with
unique keys; Python values relevant to the claims are represented by `PyVal`
(integers, strings, booleans and `None`) together with Python's `==` and
`str` semantics.  Generators are represented by the lists they yield
(the generators in the source are restartable and deterministic).
-/

/-- A Python value as it occurs in parameter combinations and metric records:
an integer, a string, a boolean, or `None`. -/
inductive PyVal where
  | int (n : Int)
  | str (s : String)
  | bool (b : Bool)
  | none
  deriving DecidableEq, Repr

/-- Python's `==` on `PyVal`, including Python's cross-type numeric equality
`True == 1` and `False == 0` (in Python, `bool` is a subtype of `int`). -/
def pyEq : PyVal → PyVal → Bool
  | .int a, .int b => a == b
  | .str a, .str b => a == b
  | .bool a, .bool b => a == b
  | .int a, .bool b => a == (if b then (1 : Int) else 0)
  | .bool a, .int b => (if a then (1 : Int) else 0) == b
  | .none, .none => true
  | _, _ => false

/-- Python's `str()` rendering of a `PyVal`. -/
def pyStr : PyVal → String
  | .int n => toString n
  | .str s => s
  | .bool b => if b then "True" else "False"
  | .none => "None"

/-- Association-list lookup, the embedding of Python `dict.__getitem__` /
`dict.get` returning an optional value (`Option.none` models a missing key). -/
def assocLookup [DecidableEq K] : List (K × V) → K → Option V
  | [], _ => Option.none
  | (k', v) :: rest, k => if k' = k then some v else assocLookup rest k

/-- Embedding of Python `dict.__setitem__`: overwrite the value of an existing
key in place, or append a new key at the end. -/
def dictSet [DecidableEq K] : List (K × V) → K → V → List (K × V)
  | [], k, v => [(k, v)]
  | (k', v') :: rest, k, v =>
      if k' = k then (k, v) :: rest else (k', v') :: dictSet rest k v

/-- Embedding of Python `dict.update`: set every key/value pair of the second
dictionary in the first, in order. -/
def dictUpdate [DecidableEq K] (d u : List (K × V)) : List (K × V) :=
  u.foldl (fun acc p => dictSet acc p.1 p.2) d

/-- Embedding of Python `dict.get(k)` over `PyVal` rows: a missing key yields
the Python value `None` (as in `ParametersMetricsCollection.contains`). -/
def pyDictGet (row : List (String × PyVal)) (k : String) : PyVal :=
  match assocLookup row k with
  | some v => v
  | Option.none => PyVal.none

/-- The key sequence of a Python dict built by inserting the given keys in
order: each key is kept at its first insertion position, duplicates do not
create new entries (embedding of `{k: Option(k) for k in o}` in
`OptionsGeneratorBase.__init__`). -/
def pyDictKeys [DecidableEq K] (ks : List K) : List K :=
  ks.foldl (fun acc k => if k ∈ acc then acc else acc ++ [k]) []

section IterParamCombinations

variable {V : Type}

/-- Embedding of `iter_param_combinations` / `_iter_recursive_param_combinations`
(hyperopt.py lines 25–49): for the first parameter name and each of its values
in order, recursively enumerate all combinations of the remaining parameters
(the mutable `params` dict of the source, copied by `dict(params)` at each
yield, corresponds to consing the current assignment onto each recursively
produced tail). -/
def iterParamCombinations : List (String × List V) → List (List (String × V))
  | [] => [[]]
  | (nam, vs) :: rest =>
      vs.flatMap (fun v => (iterParamCombinations rest).map (fun tail => (nam, v) :: tail))

/-- The number of combinations of a parameter-options mapping: the product of
the per-parameter option counts (as precomputed in `GridSearch.__init__`). -/
def numParamCombinations (pairs : List (String × List V)) : Nat :=
  (pairs.map (fun p => p.2.length)).prod

/-- Stated from the spec's words, for comparison with `iterParamCombinations`:
the `j`-th combination of the Cartesian product in the order that varies the
last-declared parameter fastest, i.e. parameter `i` takes its value at
mixed-radix digit `(j / ∏ later radices) % radix i`.  `d` is an arbitrary
default used for out-of-range indices. -/
def specLastFastestCombination (d : V) : List (String × List V) → Nat → List (String × V)
  | [], _ => []
  | (nam, vs) :: rest, j =>
      (nam, vs.getD (j / numParamCombinations rest) d) ::
        specLastFastestCombination d rest (j % numParamCombinations rest)

/-- Stated from the spec's words: the full Cartesian product enumerated with
the last-declared parameter varying fastest. -/
def specLastFastestEnumeration (d : V) (pairs : List (String × List V)) :
    List (List (String × V)) :=
  (List.range (numParamCombinations pairs)).map (specLastFastestCombination d pairs)

theorem numParamCombinations_cons (nam : String) (vs : List V)
    (rest : List (String × List V)) :
    numParamCombinations ((nam, vs) :: rest) = vs.length * numParamCombinations rest := by
  simp [numParamCombinations]

theorem flatMap_eq_range_getD (d : V') (l : List V') (g : V' → List β) :
    l.flatMap g = (List.range l.length).flatMap (fun i => g (l.getD i d)) := by
  induction l with
  | nil => rfl
  | cons x xs ih =>
      simp only [List.flatMap_cons, List.length_cons, List.range_succ_eq_map,
        List.flatMap_cons, List.flatMap_map]
      rw [ih]
      rfl

theorem range_mul_eq_flatMap (a b : Nat) :
    List.range (a * b) = (List.range a).flatMap (fun q => (List.range b).map (fun r => q * b + r)) := by
  induction a with
  | zero => simp
  | succ n ih =>
      rw [Nat.succ_mul, List.range_add, List.range_succ, List.flatMap_append, ← ih]
      simp

theorem iterParamCombinations_eq_spec (d : V) (pairs : List (String × List V)) :
    iterParamCombinations pairs = specLastFastestEnumeration d pairs := by
  induction pairs with
  | nil => rfl
  | cons p rest ih =>
      obtain ⟨nam, vs⟩ := p
      rcases Nat.eq_zero_or_pos (numParamCombinations rest) with h0 | hpos
      · have hrest : iterParamCombinations rest = [] := by
          rw [ih, specLastFastestEnumeration, h0]
          rfl
        simp [iterParamCombinations, specLastFastestEnumeration,
          numParamCombinations_cons, h0, hrest]
      · set P := numParamCombinations rest with hP
        rw [iterParamCombinations, specLastFastestEnumeration,
          numParamCombinations_cons, ← hP, Nat.mul_comm vs.length P, Nat.mul_comm P vs.length,
          range_mul_eq_flatMap vs.length P, List.map_flatMap,
          flatMap_eq_range_getD d vs]
        apply List.flatMap_congr
        intro q _hq
        rw [List.map_map, ih, specLastFastestEnumeration, List.map_map]
        apply List.map_congr_left
        intro r hr
        have hrP : r < P := List.mem_range.mp hr
        simp only [Function.comp_apply, specLastFastestCombination, ← hP]
        have hdiv : (q * P + r) / P = q := by
          rw [Nat.mul_comm q P, Nat.mul_add_div hpos, Nat.div_eq_of_lt hrP]
          simp
        have hmod : (q * P + r) % P = r := by
          rw [Nat.mul_comm q P, Nat.mul_add_mod, Nat.mod_eq_of_lt hrP]
        rw [hdiv, hmod]

theorem specLastFastestCombination_map_fst (d : V) (pairs : List (String × List V)) (j : Nat) :
    (specLastFastestCombination d pairs j).map Prod.fst = pairs.map Prod.fst := by
  induction pairs generalizing j with
  | nil => rfl
  | cons p rest ih =>
      obtain ⟨nam, vs⟩ := p
      simp [specLastFastestCombination, ih]

/-- Claim C1: `iter_param_combinations` yields exactly the full Cartesian
product of the per-parameter value lists: the number of yielded combinations
is the product of the per-parameter option counts, every yielded combination's
key list equals the input key list, the enumeration varies the last-declared
parameter fastest (the `j`-th combination assigns parameter `i` its value at
mixed-radix digit `(j / ∏ later counts) % count i`), and the empty mapping
yields the single empty combination. -/
theorem C1_iter_param_combinations_cartesian_product (d : V) (pairs : List (String × List V)) :
    (iterParamCombinations pairs).length = (pairs.map (fun p => p.2.length)).prod
    ∧ (∀ c ∈ iterParamCombinations pairs, c.map Prod.fst = pairs.map Prod.fst)
    ∧ iterParamCombinations pairs = specLastFastestEnumeration d pairs
    ∧ iterParamCombinations ([] : List (String × List V)) = [[]] := by
  refine ⟨?_, ?_, iterParamCombinations_eq_spec d pairs, rfl⟩
  · rw [iterParamCombinations_eq_spec d pairs]
    simp [specLastFastestEnumeration, numParamCombinations]
  · intro c hc
    rw [iterParamCombinations_eq_spec d pairs] at hc
    obtain ⟨j, _, rfl⟩ := List.mem_map.mp hc
    exact specLastFastestCombination_map_fst d pairs j

end IterParamCombinations

/-- Embedding of `ParametersMetricsCollection.contains` (hyperopt.py lines
203–212): some stored row must agree with the candidate on every candidate
key, where row value `ev` agrees with candidate value `v` unless
`ev != v and str(ev) != str(v)`.  Missing row keys yield Python `None`
(`existingValues.get(k)`).  The Python function returns `True` or falls
through returning `None`; Python truthiness of the result is modelled as
`Bool`. -/
def containsValues (valueDicts : List (List (String × PyVal)))
    (values : List (String × PyVal)) : Bool :=
  valueDicts.any (fun existing =>
    values.all (fun kv =>
      !(!pyEq (pyDictGet existing kv.1) kv.2 && !(pyStr (pyDictGet existing kv.1) == pyStr kv.2))))

/-- Claim C2 counterexample: with a stored row holding the integer `1` under
key `"a"`, the candidate holding the boolean `True` under `"a"` is reported
as contained (Python's `True == 1`), although no stored row is equal to the
candidate under textual comparison (`str(1) = "1"` versus
`str(True) = "True"`); so `contains` does not return false whenever textual
comparison fails. -/
theorem C2_counterexample_contains_not_purely_textual :
    containsValues [[("a", PyVal.int 1)]] [("a", PyVal.bool true)] = true
    ∧ ¬ ∃ row ∈ [[("a", PyVal.int 1)]], ∀ kv ∈ [("a", PyVal.bool true)],
        pyStr (pyDictGet row kv.1) = pyStr kv.2 := by
  decide

/-- Claim C2 (amended): `contains(record)` returns true if and only if some
existing row has, for every key in the candidate, a value that is equal under
Python equality or equal under textual comparison (string equality of the
rendered values). -/
theorem C2_contains_iff_some_row_equal_or_textually_equal
    (rows : List (List (String × PyVal))) (cand : List (String × PyVal)) :
    containsValues rows cand = true ↔
      ∃ row ∈ rows, ∀ kv ∈ cand,
        pyEq (pyDictGet row kv.1) kv.2 = true ∨ pyStr (pyDictGet row kv.1) = pyStr kv.2 := by
  simp only [containsValues, List.any_eq_true, List.all_eq_true, Bool.not_and,
    Bool.not_not, Bool.or_eq_true, beq_iff_eq]

section AssocLemmas

universe uK uV

variable {K : Type uK} {V : Type uV} [DecidableEq K]

theorem assocLookup_dictSet (d : List (K × V)) (k k' : K) (v : V) :
    assocLookup (dictSet d k v) k' = if k = k' then some v else assocLookup d k' := by
  induction d with
  | nil => simp [dictSet, assocLookup]
  | cons p rest ih =>
      obtain ⟨pk, pv⟩ := p
      by_cases hpk : pk = k
      · subst hpk
        by_cases hk' : pk = k'
        · subst hk'
          simp [dictSet, assocLookup]
        · simp [dictSet, assocLookup, hk']
      · by_cases hk' : pk = k'
        · subst hk'
          have hkk : ¬(k = pk) := fun h => hpk h.symm
          simp [dictSet, assocLookup, hpk, hkk]
        · simp [dictSet, assocLookup, hpk, hk', ih]

theorem assocLookup_eq_none_of_not_mem {d : List (K × V)} {k : K}
    (h : k ∉ d.map Prod.fst) : assocLookup d k = Option.none := by
  induction d with
  | nil => rfl
  | cons p rest ih =>
      simp only [List.map_cons, List.mem_cons] at h
      push_neg at h
      simp only [assocLookup, if_neg (Ne.symm h.1)]
      exact ih h.2

theorem assocLookup_dictUpdate_not_mem {u : List (K × V)} {k : K}
    (h : k ∉ u.map Prod.fst) (d : List (K × V)) :
    assocLookup (dictUpdate d u) k = assocLookup d k := by
  induction u generalizing d with
  | nil => rfl
  | cons p rest ih =>
      simp only [List.map_cons, List.mem_cons] at h
      push_neg at h
      show assocLookup (dictUpdate (dictSet d p.1 p.2) rest) k = _
      rw [ih h.2, assocLookup_dictSet, if_neg (Ne.symm h.1)]

theorem assocLookup_dictUpdate_mem {u : List (K × V)} {k : K} {v : V}
    (hnodup : (u.map Prod.fst).Nodup) (hkv : (k, v) ∈ u) (d : List (K × V)) :
    assocLookup (dictUpdate d u) k = some v := by
  induction u generalizing d with
  | nil => cases hkv
  | cons p rest ih =>
      simp only [List.map_cons, List.nodup_cons] at hnodup
      rcases List.mem_cons.mp hkv with heq | hmem
      · subst heq
        show assocLookup (dictUpdate (dictSet d k v) rest) k = some v
        rw [assocLookup_dictUpdate_not_mem hnodup.1, assocLookup_dictSet, if_pos rfl]
      · exact ih hnodup.2 hmem _

end AssocLemmas

/-- Embedding of `ParameterCombinationEquivalenceClassValueCache.set`
(hyperopt.py lines 113–114): store the value in the underlying dict under the
equivalence-class key computed by the pluggable reduction. -/
def cacheSet [DecidableEq E] (equivClass : P → E) (cache : List (E × V))
    (params : P) (v : V) : List (E × V) :=
  dictSet cache (equivClass params) v

/-- Embedding of `ParameterCombinationEquivalenceClassValueCache.get`
(hyperopt.py lines 116–122): look the equivalence-class key up in the
underlying dict; a miss returns Python `None` (`dict.get`), modelled as
`Option.none`. -/
def cacheGet [DecidableEq E] (equivClass : P → E) (cache : List (E × V))
    (params : P) : Option V :=
  assocLookup cache (equivClass params)

/-- Claim C7: for every equivalence-class cache (whether or not the key is
already present, in which case it is overwritten) and combinations `c1`, `c2`
mapping to the same equivalence key under the cache's reduction, `set(c1, v)`
followed by `get(c2)` returns `v`, even if `c1` and `c2` differ in fields the
reduction drops; and a `get` whose key was never set returns absent (`None`)
rather than raising an error. -/
theorem C7_cache_set_get_same_equivalence_class [DecidableEq E]
    (equivClass : P → E) (cache : List (E × V)) (c1 c2 : P) (v : V)
    (h : equivClass c1 = equivClass c2) :
    cacheGet equivClass (cacheSet equivClass cache c1 v) c2 = some v
    ∧ (equivClass c2 ∉ cache.map Prod.fst → cacheGet equivClass cache c2 = Option.none) := by
  constructor
  · rw [cacheGet, cacheSet, assocLookup_dictSet, if_pos h]
  · exact fun hfresh => assocLookup_eq_none_of_not_mem hfresh

/-- A concrete equivalence-class reduction for the witness: keep only the
value of parameter `"a"` (parameters other than `"a"` are considered not to
affect the outcome). -/
def exampleReduction (p : List (String × PyVal)) : Option PyVal :=
  assocLookup p "a"

theorem C7_witness :
    cacheGet exampleReduction
        (cacheSet exampleReduction [(some (PyVal.int 1), PyVal.int 3)]
          [("a", PyVal.int 1), ("b", PyVal.int 2)] (PyVal.int 7))
        [("a", PyVal.int 1), ("b", PyVal.int 9)] = some (PyVal.int 7) :=
  (C7_cache_set_get_same_equivalence_class exampleReduction
    [(some (PyVal.int 1), PyVal.int 3)]
    [("a", PyVal.int 1), ("b", PyVal.int 2)] [("a", PyVal.int 1), ("b", PyVal.int 9)]
    (PyVal.int 7) (by decide)).1

/-- A parameter combination: an insertion-ordered mapping from parameter name
to value. -/
abbrev ParamCombo := List (String × PyVal)

/-- A parameter-options mapping: an insertion-ordered mapping from parameter
name to the list of values to try. -/
abbrev ParamOptions := List (String × List PyVal)

/-- The key set of a parameter-options mapping, the embedding of
`set(d.keys())` in `GridSearch.__init__`. -/
def paramOptionsKeySet (d : ParamOptions) : Finset String :=
  (d.map Prod.fst).toFinset

/-- Embedding of the key-set validation loop of `GridSearch.__init__`
(hyperopt.py lines 256–259): each remaining mapping's key set must equal the
first mapping's key set, otherwise a `ValueError` is raised. -/
def gridSearchCheckKeys (paramNames : Finset String) :
    List ParamOptions → Except String Unit
  | [] => Except.ok ()
  | d :: rest =>
      if paramOptionsKeySet d = paramNames then gridSearchCheckKeys paramNames rest
      else Except.error "Keys must be the same for all parameter options dictionaries"

/-- Embedding of `GridSearch.__init__`'s validation (run before any
evaluation): the key set of every alternative parameter-options mapping is
compared against the first mapping's key set. -/
def gridSearchInit (head : ParamOptions) (rest : List ParamOptions) : Except String Unit :=
  gridSearchCheckKeys (paramOptionsKeySet head) rest

/-- Embedding of the combination enumeration of `GridSearch.run` (hyperopt.py
lines 338–339 / 351–352): the nested loop `for parameter_options in
self.parameter_options_list: for params_dict in
iter_param_combinations(parameter_options)` — the enumerations of the
alternative mappings, concatenated in order. -/
def gridCombinationSequence : List ParamOptions → List ParamCombo
  | [] => []
  | p :: rest => iterParamCombinations p ++ gridCombinationSequence rest

/-- One step of a grid-search run, as observable for the index bookkeeping:
a combination is either skipped by the incremental contains check (before an
index is used), or passed to `_eval_params` with the current combination
index, where the skip decider may still skip it. -/
inductive GridEvent where
  | skippedExisting (combo : ParamCombo)
  | deciderSkipped (combo : ParamCombo) (idx : Nat)
  | evaluated (combo : ParamCombo) (idx : Nat)
  deriving DecidableEq, Repr

/-- Embedding of the per-combination loop body of `GridSearch.run`
(hyperopt.py lines 336–362, identical index logic in the sequential and
parallel branches): if `incremental_skip_existing and incremental` and the
collection contains the combination, `continue` is executed before
`combination_idx += 1`; otherwise `_eval_params` is called with the current
`combination_idx` (inside which the skip decider may skip) and the index is
incremented afterwards. -/
def gridRunEventsFrom (skipExisting incremental : Bool)
    (containsCheck deciderSkips : ParamCombo → Bool) :
    List ParamCombo → Nat → List GridEvent
  | [], _ => []
  | c :: rest, idx =>
      if skipExisting && incremental && containsCheck c then
        GridEvent.skippedExisting c ::
          gridRunEventsFrom skipExisting incremental containsCheck deciderSkips rest idx
      else
        (if deciderSkips c then GridEvent.deciderSkipped c idx else GridEvent.evaluated c idx) ::
          gridRunEventsFrom skipExisting incremental containsCheck deciderSkips rest (idx + 1)

/-- The sequence of events of a grid-search run over all alternative
parameter-options mappings, with the combination index starting at 0. -/
def gridRunEvents (skipExisting incremental : Bool)
    (containsCheck deciderSkips : ParamCombo → Bool) (optsList : List ParamOptions) :
    List GridEvent :=
  gridRunEventsFrom skipExisting incremental containsCheck deciderSkips
    (gridCombinationSequence optsList) 0

/-- The combination index consumed by an event: contains-skipped combinations
consume none, all combinations passed to `_eval_params` consume one. -/
def eventIdx : GridEvent → Option Nat
  | GridEvent.skippedExisting _ => Option.none
  | GridEvent.deciderSkipped _ i => some i
  | GridEvent.evaluated _ i => some i

/-- The property asserted by claim C4: the combination index advances by one
on every enumerated combination (including skipped ones), so the event at
enumeration position `i`, if it carries an index at all, carries index `i`. -/
def indexAdvancesOnEveryCombination (events : List GridEvent) : Prop :=
  ∀ i : Fin events.length, ∀ idx : Nat, eventIdx (events.get i) = some idx → idx = i.val

/-- Claim C4 counterexample: with options `{"a": [1, 2]}` in incremental
skip-existing mode and the collection already containing `{"a": 1}`, the
first combination is skipped by the contains check and the second combination
is evaluated with index 0 — not index 1 — so the index did not advance on the
contains-skipped combination. -/
theorem C4_counterexample_contains_skip_does_not_advance_index :
    gridRunEvents true true (fun c => c == [("a", PyVal.int 1)]) (fun _ => false)
        [[("a", [PyVal.int 1, PyVal.int 2])]]
      = [GridEvent.skippedExisting [("a", PyVal.int 1)],
         GridEvent.evaluated [("a", PyVal.int 2)] 0]
    ∧ ¬ indexAdvancesOnEveryCombination
        (gridRunEvents true true (fun c => c == [("a", PyVal.int 1)]) (fun _ => false)
          [[("a", [PyVal.int 1, PyVal.int 2])]]) := by
  constructor
  · rfl
  · intro h
    have h10 := h ⟨1, by decide⟩ 0 (by decide)
    exact absurd h10 (by decide)

theorem gridRunEventsFrom_filterMap_eventIdx (skipExisting incremental : Bool)
    (containsCheck deciderSkips : ParamCombo → Bool) (combos : List ParamCombo) (k : Nat) :
    (gridRunEventsFrom skipExisting incremental containsCheck deciderSkips combos k).filterMap
        eventIdx
      = List.range' k (combos.countP (fun c => !(skipExisting && incremental && containsCheck c))) := by
  induction combos generalizing k with
  | nil => rfl
  | cons c rest ih =>
      rw [List.countP_cons]
      cases hc : skipExisting && incremental && containsCheck c with
      | true =>
          have e1 : gridRunEventsFrom skipExisting incremental containsCheck deciderSkips
                (c :: rest) k
              = GridEvent.skippedExisting c ::
                  gridRunEventsFrom skipExisting incremental containsCheck deciderSkips rest k := by
            rw [gridRunEventsFrom, if_pos hc]
          have e2 : List.filterMap eventIdx
                (GridEvent.skippedExisting c ::
                  gridRunEventsFrom skipExisting incremental containsCheck deciderSkips rest k)
              = List.filterMap eventIdx
                  (gridRunEventsFrom skipExisting incremental containsCheck deciderSkips rest k) :=
            rfl
          rw [e1, e2, ih]
          simp [hc]
      | false =>
          have hcn : ¬(skipExisting && incremental && containsCheck c) = true := by
            rw [hc]
            exact Bool.false_ne_true
          have e1 : gridRunEventsFrom skipExisting incremental containsCheck deciderSkips
                (c :: rest) k
              = (if deciderSkips c then GridEvent.deciderSkipped c k
                  else GridEvent.evaluated c k) ::
                  gridRunEventsFrom skipExisting incremental containsCheck deciderSkips rest
                    (k + 1) := by
            rw [gridRunEventsFrom, if_neg hcn]
          have e2 : List.filterMap eventIdx
                ((if deciderSkips c then GridEvent.deciderSkipped c k
                  else GridEvent.evaluated c k) ::
                  gridRunEventsFrom skipExisting incremental containsCheck deciderSkips rest
                    (k + 1))
              = k :: List.filterMap eventIdx
                  (gridRunEventsFrom skipExisting incremental containsCheck deciderSkips rest
                    (k + 1)) := by
            cases hd : deciderSkips c with
            | true => rfl
            | false => rfl
          rw [e1, e2, ih]
          simp only [hc, Bool.not_false, if_true]
          rw [List.range'_succ]

/-- Claim C4 (amended): during a grid-search run the combination index starts
at 0 and advances by one exactly for each combination passed to evaluation —
including combinations skipped by the skip decider, which still consume their
index — while combinations skipped by the incremental contains check do not
advance the index: the sequence of consumed indices is
`0, 1, …, (number of non-contains-skipped combinations) - 1`. -/
theorem C4_index_advances_except_contains_skips (skipExisting incremental : Bool)
    (containsCheck deciderSkips : ParamCombo → Bool) (optsList : List ParamOptions) :
    (gridRunEvents skipExisting incremental containsCheck deciderSkips optsList).filterMap
        eventIdx
      = List.range
          ((gridCombinationSequence optsList).countP
            (fun c => !(skipExisting && incremental && containsCheck c))) := by
  rw [gridRunEvents, gridRunEventsFrom_filterMap_eventIdx, List.range_eq_range']

/-- Claim C9: constructing a `GridSearch` from alternative parameter-options
mappings succeeds exactly when every mapping's key set equals the first
mapping's key set; on any mismatch it fails with the configuration error
`ValueError("Keys must be the same for all parameter options dictionaries")`
at construction (the check is part of `__init__`, before any evaluation);
when it succeeds, the run enumerates the concatenation of the mappings'
enumerations in order. -/
theorem C9_grid_search_init_key_set_validation (head : ParamOptions)
    (rest : List ParamOptions) :
    (gridSearchInit head rest = Except.ok () ↔
      ∀ d ∈ rest, paramOptionsKeySet d = paramOptionsKeySet head)
    ∧ ((∃ d ∈ rest, paramOptionsKeySet d ≠ paramOptionsKeySet head) →
        gridSearchInit head rest
          = Except.error "Keys must be the same for all parameter options dictionaries")
    ∧ gridCombinationSequence (head :: rest)
        = (head :: rest).flatMap iterParamCombinations := by
  refine ⟨?_, ?_, ?_⟩
  · rw [gridSearchInit]
    induction rest with
    | nil => simp [gridSearchCheckKeys]
    | cons d ds ih =>
        by_cases hd : paramOptionsKeySet d = paramOptionsKeySet head
        · simp [gridSearchCheckKeys, hd, ih]
        · simp [gridSearchCheckKeys, hd]
  · intro hex
    rw [gridSearchInit]
    induction rest with
    | nil => simp at hex
    | cons d ds ih =>
        by_cases hd : paramOptionsKeySet d = paramOptionsKeySet head
        · have : ∃ e ∈ ds, paramOptionsKeySet e ≠ paramOptionsKeySet head := by
            rcases hex with ⟨e, he, hne⟩
            rcases List.mem_cons.mp he with rfl | hmem
            · exact absurd hd hne
            · exact ⟨e, hmem, hne⟩
          simp [gridSearchCheckKeys, hd, ih this]
        · simp [gridSearchCheckKeys, hd]
  · have haux : ∀ l : List ParamOptions,
        gridCombinationSequence l = l.flatMap iterParamCombinations := by
      intro l
      induction l with
      | nil => rfl
      | cons d ds ih => rw [gridCombinationSequence, List.flatMap_cons, ih]
    exact haux (head :: rest)

/-- Embedding of `SAHyperOpt.State.get_state_representation` (hyperopt.py
lines 426–427): the state representation is the state's parameter
combination itself. -/
def getStateRepresentation (params : List (String × PyVal)) : List (String × PyVal) :=
  params

/-- Embedding of `SAHyperOpt.State.apply_state_representation` (hyperopt.py
lines 429–430): merge the given representation into the shared results dict
(`self.results.update(representation)`). -/
def applyStateRepresentation (results representation : List (String × PyVal)) :
    List (String × PyVal) :=
  dictUpdate results representation

/-- Modelled from the spec: the generic simulated-annealing engine
(`local_search` module, absent from the sources) runs to completion and, over
the whole trajectory, applies each accepted state's representation (obtained
via `get_state_representation`) to the state; `SAHyperOpt.run` creates the
shared results dict empty and returns it after `optimise` completes. -/
def saRunResults (acceptedParams : List (List (String × PyVal))) : List (String × PyVal) :=
  acceptedParams.foldl
    (fun res p => applyStateRepresentation res (getStateRepresentation p)) []

/-- A concrete metrics evaluator for the annealing scenario: every model
evaluates to the single metric `"loss"` with value `5`, so the evaluator's
own metric name is `"loss"`. -/
def exampleComputeMetrics (_params : List (String × PyVal)) : List (String × PyVal) :=
  [("loss", PyVal.int 5)]

/-- Claim C3 counterexample: in a run whose final accepted state has
parameters `{"x": 1}` and whose evaluator produces the metrics
`{"loss": 5}`, the shared results dict returned by `run` equals the
parameter dict `{"x": 1}` and holds nothing under the evaluator's metric
name `"loss"`: applying a state representation merges the state's
*parameters*, not its metrics, into the shared sink. -/
theorem C3_counterexample_results_hold_params_not_metrics :
    saRunResults [[("x", PyVal.int 1)]] = [("x", PyVal.int 1)]
    ∧ exampleComputeMetrics [("x", PyVal.int 1)] = [("loss", PyVal.int 5)]
    ∧ assocLookup (saRunResults [[("x", PyVal.int 1)]]) "loss" = Option.none := by
  decide

/-- Claim C3 (amended): after a completed annealing run, the shared results
dict returned by `SAHyperOpt.run` contains at least the final accepted
state's *parameter combination* under the parameter names, because applying
an accepted state representation merges that state's parameters into the
shared sink, with later merges overwriting earlier values under shared
keys. -/
theorem C3_run_results_contain_final_accepted_params
    (traj : List (List (String × PyVal))) (final : List (String × PyVal))
    (h : (final.map Prod.fst).Nodup) :
    ∀ kv ∈ final, assocLookup (saRunResults (traj ++ [final])) kv.1 = some kv.2 := by
  intro kv hkv
  have : saRunResults (traj ++ [final]) = dictUpdate (saRunResults traj) final := by
    rw [saRunResults, List.foldl_append]
    rfl
  rw [this]
  obtain ⟨k, v⟩ := kv
  exact assocLookup_dictUpdate_mem h hkv _

theorem C3_witness :
    assocLookup (saRunResults ([[("a", PyVal.int 0)]] ++ [[("x", PyVal.int 1)]])) "x"
      = some (PyVal.int 1) :=
  C3_run_results_contain_final_accepted_params [[("a", PyVal.int 0)]]
    [("x", PyVal.int 1)] (by decide) ("x", PyVal.int 1) (by decide)

/-- Embedding of `OptionsProduct.iter_options` (hyperopt.py lines 604–607):
for each combination yielded by the first generator (outer loop) and each
combination yielded by the second (inner loop, re-iterated from the start for
every outer element), yield their concatenation.  A generator is represented
by the list of option combinations it yields; an option is represented by its
key (its optional associated value plays no role in any claim). -/
def optionsProduct {α : Type} (g1 g2 : List (List α)) : List (List α) :=
  g1.flatMap (fun r1 => g2.map (fun r2 => r1 ++ r2))

/-- Claim C6: `Product(G1, G2)` yields `|G1| × |G2|` combinations, each the
concatenation of one combination from `G1` (outer) with one from `G2`
(inner); and the products `(A×B)×C` and `A×(B×C)` yield the same multiset —
in fact the same list — of concatenations. -/
theorem C6_options_product_count_concat_assoc {α : Type} (g1 g2 a b c : List (List α)) :
    (optionsProduct g1 g2).length = g1.length * g2.length
    ∧ optionsProduct g1 g2
        = g1.flatMap (fun r1 => g2.map (fun r2 => r1 ++ r2))
    ∧ (∀ r ∈ optionsProduct g1 g2, ∃ r1 ∈ g1, ∃ r2 ∈ g2, r = r1 ++ r2)
    ∧ optionsProduct (optionsProduct a b) c = optionsProduct a (optionsProduct b c)
    ∧ (optionsProduct (optionsProduct a b) c).Perm (optionsProduct a (optionsProduct b c)) := by
  have hassoc : optionsProduct (optionsProduct a b) c
      = optionsProduct a (optionsProduct b c) := by
    simp only [optionsProduct, List.flatMap_assoc, List.map_flatMap, List.flatMap_map,
      List.map_map]
    apply List.flatMap_congr
    intro x _
    apply List.flatMap_congr
    intro y _
    simp [Function.comp, List.append_assoc]
  refine ⟨?_, rfl, ?_, hassoc, hassoc ▸ List.Perm.refl _⟩
  · rw [optionsProduct, List.length_flatMap]
    have hmap : List.map (List.length ∘ fun r1 => List.map (fun r2 => r1 ++ r2) g2) g1
        = List.map (fun _ => g2.length) g1 := by
      apply List.map_congr_left
      intro x _
      simp
    rw [hmap, List.map_const', List.sum_replicate, smul_eq_mul]
  · intro r hr
    simp only [optionsProduct, List.mem_flatMap, List.mem_map] at hr
    obtain ⟨r1, h1, r2, h2, rfl⟩ := hr
    exact ⟨r1, h1, r2, h2, rfl⟩

section PyDictKeysLemmas

universe uP

variable {K : Type uP} [DecidableEq K]

theorem pyDictKeys_foldl_nodup (ks : List K) (acc : List K) (h : acc.Nodup) :
    (ks.foldl (fun acc k => if k ∈ acc then acc else acc ++ [k]) acc).Nodup := by
  induction ks generalizing acc with
  | nil => exact h
  | cons k rest ih =>
      rw [List.foldl_cons]
      by_cases hk : k ∈ acc
      · rw [if_pos hk]
        exact ih acc h
      · rw [if_neg hk]
        refine ih _ (List.nodup_append.mpr ⟨h, List.nodup_singleton k, ?_⟩)
        intro a ha hb
        rw [List.mem_singleton] at hb
        subst hb
        exact hk ha

theorem pyDictKeys_foldl_toFinset (ks : List K) (acc : List K) :
    (ks.foldl (fun acc k => if k ∈ acc then acc else acc ++ [k]) acc).toFinset
      = acc.toFinset ∪ ks.toFinset := by
  induction ks generalizing acc with
  | nil => simp
  | cons k rest ih =>
      rw [List.foldl_cons]
      by_cases hk : k ∈ acc
      · rw [if_pos hk, ih, List.toFinset_cons, Finset.union_insert,
          Finset.insert_eq_self.mpr (Finset.mem_union_left _ (List.mem_toFinset.mpr hk))]
      · rw [if_neg hk, ih, List.toFinset_append, List.toFinset_cons]
        ext a
        simp only [Finset.mem_union, List.mem_toFinset, Finset.mem_insert, List.toFinset_cons,
          List.toFinset_nil, insert_emptyc_eq, Finset.mem_singleton]
        tauto

theorem pyDictKeys_nodup (ks : List K) : (pyDictKeys ks).Nodup :=
  pyDictKeys_foldl_nodup ks [] List.nodup_nil

theorem pyDictKeys_toFinset (ks : List K) : (pyDictKeys ks).toFinset = ks.toFinset := by
  rw [pyDictKeys, pyDictKeys_foldl_toFinset]
  simp

end PyDictKeysLemmas

/-- Embedding of `itertools.combinations(pool, n)` as used by
`OptionsMinMaxOf.iter_options` and `iter_subsets`: all length-`n`
subsequences of the pool, in the pool's order within each subsequence,
emitted in lexicographic order of the chosen positions. -/
def combinations {α : Type} : Nat → List α → List (List α)
  | 0, _ => [[]]
  | _ + 1, [] => []
  | n + 1, x :: xs => ((combinations n xs).map (fun c => x :: c)) ++ combinations (n + 1) xs

theorem length_combinations {α : Type} (n : Nat) (l : List α) :
    (combinations n l).length = l.length.choose n := by
  induction l generalizing n with
  | nil => cases n <;> simp [combinations]
  | cons x xs ih =>
      cases n with
      | zero => simp [combinations]
      | succ m =>
          rw [combinations, List.length_append, List.length_map, ih m, ih (m + 1),
            List.length_cons]
          exact (Nat.choose_succ_succ' xs.length m).symm

theorem mem_combinations {α : Type} {c l : List α} {n : Nat} :
    c ∈ combinations n l ↔ c.Sublist l ∧ c.length = n := by
  induction l generalizing n c with
  | nil =>
      cases n with
      | zero =>
          simp only [combinations, List.mem_singleton, List.sublist_nil, List.length_eq_zero]
          tauto
      | succ m =>
          simp only [combinations, List.not_mem_nil, false_iff, not_and, List.sublist_nil]
          rintro rfl
          simp
  | cons x xs ih =>
      cases n with
      | zero =>
          simp only [combinations, List.mem_singleton, List.length_eq_zero]
          constructor
          · rintro rfl
            exact ⟨List.nil_sublist _, rfl⟩
          · exact fun h => h.2
      | succ m =>
          rw [combinations, List.mem_append, List.mem_map]
          constructor
          · rintro (⟨t, ht, rfl⟩ | h)
            · obtain ⟨hsub, hlen⟩ := ih.mp ht
              exact ⟨List.Sublist.cons₂ x hsub, by simp [hlen]⟩
            · obtain ⟨hsub, hlen⟩ := ih.mp h
              exact ⟨List.Sublist.cons x hsub, hlen⟩
          · rintro ⟨hsub, hlen⟩
            cases hsub with
            | cons _ h =>
                right
                exact ih.mpr ⟨h, hlen⟩
            | cons₂ _ h =>
                left
                refine ⟨_, ih.mpr ⟨h, ?_⟩, rfl⟩
                simpa using hlen

theorem nodup_combinations {α : Type} (n : Nat) (l : List α) (hl : l.Nodup) :
    (combinations n l).Nodup := by
  revert hl
  induction l generalizing n with
  | nil =>
      intro _
      cases n <;> simp [combinations]
  | cons x xs ih =>
      intro hl
      obtain ⟨hx, hxs⟩ := List.nodup_cons.mp hl
      cases n with
      | zero => simp [combinations]
      | succ m =>
          rw [combinations, List.nodup_append]
          refine ⟨List.Nodup.map (fun a b hab => by injection hab) (ih m hxs),
            ih (m + 1) hxs, ?_⟩
          intro c hc hc'
          obtain ⟨t, _, rfl⟩ := List.mem_map.mp hc
          have hsub : (x :: t).Sublist xs := (mem_combinations.mp hc').1
          exact hx (hsub.subset (List.mem_cons_self x t))

/-- Embedding of Python `range(a, b)`: the naturals from `a` up to but
excluding `b` (empty when `b ≤ a`). -/
def pyRange (a b : Nat) : List Nat :=
  (List.range (b - a)).map (fun i => a + i)

theorem pyRange_eq_range' (a b : Nat) : pyRange a b = List.range' a (b - a) := by
  rw [pyRange, List.range'_eq_map_range]

/-- Embedding of `OptionsAllOf.iter_options` (hyperopt.py lines 626–627): a
single combination holding every stored option, in dict order. -/
def optionsAllOf {K : Type} [DecidableEq K] (ks : List K) : List (List K) :=
  [pyDictKeys ks]

/-- Embedding of `OptionsOneOf.iter_options` (hyperopt.py lines 633–635): one
singleton combination per stored option, in dict order. -/
def optionsOneOf {K : Type} [DecidableEq K] (ks : List K) : List (List K) :=
  (pyDictKeys ks).map (fun k => [k])

/-- Embedding of `OptionsMinMaxOf.iter_options` (hyperopt.py lines 651–654):
for each `n` in `range(n_min, n_max + 1)`, all `itertools.combinations` of
the stored options of size `n`. -/
def optionsMinMaxOf {K : Type} [DecidableEq K] (ks : List K) (nMin nMax : Nat) :
    List (List K) :=
  (pyRange nMin (nMax + 1)).flatMap (fun n => combinations n (pyDictKeys ks))

/-- Embedding of `iter_subsets` (hyperopt.py lines 52–58): the chain of
`itertools.combinations(s, r)` for `r` in `range(len(s) + 1)`. -/
def iterSubsetsList {α : Type} (l : List α) : List (List α) :=
  (List.range (l.length + 1)).flatMap (fun r => combinations r l)

/-- Embedding of `OptionsSubsets.iter_options` (hyperopt.py lines 684–686):
all subsets of the stored options via `iter_subsets`. -/
def optionsSubsets {K : Type} [DecidableEq K] (ks : List K) : List (List K) :=
  iterSubsetsList (pyDictKeys ks)

/-- Embedding of `OptionsOneOrNoneOf` (hyperopt.py lines 657–664):
`MinMaxOf(o, 0, 1)`. -/
def optionsOneOrNoneOf {K : Type} [DecidableEq K] (ks : List K) : List (List K) :=
  optionsMinMaxOf ks 0 1

/-- Embedding of `OptionsNOf` (hyperopt.py lines 667–675): `MinMaxOf(o, n, n)`. -/
def optionsNOf {K : Type} [DecidableEq K] (ks : List K) (n : Nat) : List (List K) :=
  optionsMinMaxOf ks n n

theorem sum_map_range (f : Nat → Nat) (n : Nat) :
    ((List.range n).map f).sum = ∑ i ∈ Finset.range n, f i := by
  induction n with
  | zero => simp
  | succ m ih =>
      rw [List.range_succ, List.map_append, List.sum_append, Finset.sum_range_succ, ih]
      simp

theorem pairwise_le_of_forall_eq {l : List Nat} {a : Nat} (h : ∀ x ∈ l, x = a) :
    List.Pairwise (· ≤ ·) l := by
  induction l with
  | nil => exact List.Pairwise.nil
  | cons y ys ih =>
      refine List.Pairwise.cons ?_ (ih (fun x hx => h x (List.mem_cons_of_mem _ hx)))
      intro z hz
      rw [h y (List.mem_cons_self _ _), h z (List.mem_cons_of_mem _ hz)]

theorem sorted_lengths_flatMap_combinations {α : Type} (opts : List α) (m : Nat) :
    ∀ a : Nat, List.Sorted (· ≤ ·)
      (((List.range' a m).flatMap (fun n => combinations n opts)).map List.length) := by
  induction m with
  | zero =>
      intro a
      simp
  | succ t ih =>
      intro a
      rw [List.range'_succ, List.flatMap_cons, List.map_append]
      apply List.pairwise_append.mpr
      refine ⟨?_, ih (a + 1), ?_⟩
      · apply pairwise_le_of_forall_eq (a := a)
        intro x hx
        obtain ⟨c, hc, rfl⟩ := List.mem_map.mp hx
        exact (mem_combinations.mp hc).2
      · intro x hx y hy
        obtain ⟨c, hc, rfl⟩ := List.mem_map.mp hx
        obtain ⟨c', hc', rfl⟩ := List.mem_map.mp hy
        obtain ⟨n, hn, hcn⟩ := List.mem_flatMap.mp hc'
        have hna : a + 1 ≤ n := (List.mem_range'_1.mp hn).1
        rw [(mem_combinations.mp hc).2, (mem_combinations.mp hcn).2]
        omega

/-- Claim C5: for `n_min ≤ n_max ≤ |options|`, `OptionsMinMaxOf` yields
exactly `Σ_{n=n_min}^{n_max} C(|options|, n)` combinations, all distinct,
ordered by increasing subset size, where each combination is an unordered
`n`-subset preserving the input order of the options within it (a sublist of
the stored option sequence), with `n_min ≤ n ≤ n_max`; conversely every such
subset is yielded. -/
theorem C5_min_max_of_yields_all_subsets_by_size {K : Type} [DecidableEq K]
    (ks : List K) (nMin nMax : Nat)
    (h1 : nMin ≤ nMax) (h2 : nMax ≤ (pyDictKeys ks).length) :
    (optionsMinMaxOf ks nMin nMax).length
        = ∑ n ∈ Finset.Icc nMin nMax, Nat.choose (pyDictKeys ks).length n
    ∧ (optionsMinMaxOf ks nMin nMax).Nodup
    ∧ List.Sorted (· ≤ ·) ((optionsMinMaxOf ks nMin nMax).map List.length)
    ∧ (∀ c ∈ optionsMinMaxOf ks nMin nMax,
        c.Sublist (pyDictKeys ks) ∧ nMin ≤ c.length ∧ c.length ≤ nMax)
    ∧ (∀ c : List K, c.Sublist (pyDictKeys ks) → nMin ≤ c.length → c.length ≤ nMax →
        c ∈ optionsMinMaxOf ks nMin nMax) := by
  refine ⟨?_, ?_, ?_, ?_, ?_⟩
  · rw [optionsMinMaxOf, List.length_flatMap]
    have e1 : List.map (List.length ∘ fun n => combinations n (pyDictKeys ks))
          (pyRange nMin (nMax + 1))
        = List.map (fun n => Nat.choose (pyDictKeys ks).length n) (pyRange nMin (nMax + 1)) := by
      apply List.map_congr_left
      intro n _
      exact length_combinations n (pyDictKeys ks)
    rw [e1, pyRange, List.map_map, sum_map_range, ← Nat.Ico_succ_right,
      Finset.sum_Ico_eq_sum_range]
    simp [Nat.succ_sub_one]
  · rw [optionsMinMaxOf]
    apply List.nodup_flatMap.mpr
    constructor
    · intro n _
      exact nodup_combinations n _ (pyDictKeys_nodup ks)
    · have hnd : (pyRange nMin (nMax + 1)).Nodup := by
        rw [pyRange]
        exact List.Nodup.map (fun a b h => by omega) (List.nodup_range _)
      refine hnd.imp ?_
      intro a b hab c hc hc'
      exact hab (((mem_combinations.mp hc).2.symm.trans (mem_combinations.mp hc').2))
  · rw [optionsMinMaxOf, pyRange_eq_range']
    exact sorted_lengths_flatMap_combinations (pyDictKeys ks) (nMax + 1 - nMin) nMin
  · intro c hc
    rw [optionsMinMaxOf, List.mem_flatMap] at hc
    obtain ⟨n, hn, hcn⟩ := hc
    obtain ⟨hsub, hlen⟩ := mem_combinations.mp hcn
    rw [pyRange, List.mem_map] at hn
    obtain ⟨i, hi, rfl⟩ := hn
    have hi' := List.mem_range.mp hi
    exact ⟨hsub, by omega, by omega⟩
  · intro c hsub hmin hmax
    rw [optionsMinMaxOf, List.mem_flatMap]
    refine ⟨c.length, ?_, mem_combinations.mpr ⟨hsub, rfl⟩⟩
    rw [pyRange, List.mem_map]
    exact ⟨c.length - nMin, List.mem_range.mpr (by omega), by omega⟩

theorem C5_witness :
    1 ≤ 2 ∧ 2 ≤ (pyDictKeys ["a", "b", "c"]).length
    ∧ (optionsMinMaxOf ["a", "b", "c"] 1 2).length
        = ∑ n ∈ Finset.Icc 1 2, Nat.choose (pyDictKeys ["a", "b", "c"]).length n :=
  ⟨by decide, by decide,
    (C5_min_max_of_yields_all_subsets_by_size ["a", "b", "c"] 1 2 (by decide) (by decide)).1⟩

theorem length_iterSubsetsList {α : Type} (l : List α) :
    (iterSubsetsList l).length = 2 ^ l.length := by
  rw [iterSubsetsList, List.length_flatMap]
  have e1 : List.map (List.length ∘ fun r => combinations r l) (List.range (l.length + 1))
      = List.map (fun r => Nat.choose l.length r) (List.range (l.length + 1)) := by
    apply List.map_congr_left
    intro r _
    exact length_combinations r l
  rw [e1, sum_map_range]
  exact Nat.sum_range_choose l.length

/-- Claim C10: every option generator backed by a static collection stores
its options in a dictionary keyed by option key, so duplicate input keys are
collapsed to one entry per distinct key (kept in insertion order with the
full key set preserved); consequently every yielded combination contains at
most one option per key, and combination counts are computed over the
distinct keys rather than the raw input length: `OneOf` yields one
combination per distinct key, `Subsets` yields `2 ^ #distinct`, `AllOf` yields
one combination holding the distinct keys, and each size-`n` block of
`MinMaxOf` has `C(#distinct, n)` combinations. -/
theorem C10_static_generators_dedupe_by_key {K : Type} [DecidableEq K]
    (ks : List K) (nMin nMax n : Nat) :
    (pyDictKeys ks).Nodup
    ∧ (pyDictKeys ks).toFinset = ks.toFinset
    ∧ optionsAllOf ks = [pyDictKeys ks]
    ∧ (∀ c ∈ optionsAllOf ks, c.Nodup)
    ∧ (∀ c ∈ optionsOneOf ks, c.Nodup)
    ∧ (∀ c ∈ optionsMinMaxOf ks nMin nMax, c.Nodup)
    ∧ (∀ c ∈ optionsSubsets ks, c.Nodup)
    ∧ (optionsOneOf ks).length = (pyDictKeys ks).length
    ∧ (optionsSubsets ks).length = 2 ^ (pyDictKeys ks).length
    ∧ (combinations n (pyDictKeys ks)).length = Nat.choose (pyDictKeys ks).length n := by
  refine ⟨pyDictKeys_nodup ks, pyDictKeys_toFinset ks, rfl, ?_, ?_, ?_, ?_, ?_,
    length_iterSubsetsList _, length_combinations n _⟩
  · intro c hc
    rw [optionsAllOf, List.mem_singleton] at hc
    subst hc
    exact pyDictKeys_nodup ks
  · intro c hc
    obtain ⟨k, _, rfl⟩ := List.mem_map.mp hc
    exact List.nodup_singleton k
  · intro c hc
    rw [optionsMinMaxOf, List.mem_flatMap] at hc
    obtain ⟨m, _, hcm⟩ := hc
    exact (mem_combinations.mp hcm).1.nodup (pyDictKeys_nodup ks)
  · intro c hc
    rw [optionsSubsets, iterSubsetsList, List.mem_flatMap] at hc
    obtain ⟨r, _, hcr⟩ := hc
    exact (mem_combinations.mp hcr).1.nodup (pyDictKeys_nodup ks)
  · rw [optionsOneOf, List.length_map]

/-- The pandas DataFrame held by `ParametersMetricsCollection`: an ordered
list of column names and a list of rows, each row holding one optional value
per column (`Option.none` is the missing-value marker `None`/`NaN`). -/
structure DfState (V : Type) where
  cols : List String
  rows : List (List (Option V))

/-- The comparison `DataFrame.sort_values` induces on the cells of the sort
column: non-missing values are ordered by `le` when ascending and by its
reverse when descending, and missing values always sort last
(`na_position='last'`). -/
def cellLe {V : Type} (le : V → V → Bool) (asc : Bool) : Option V → Option V → Bool
  | _, Option.none => true
  | Option.none, some _ => false
  | some x, some y => if asc then le x y else le y x

/-- The position of a column in the column list. -/
def colIndex (cols : List String) (c : String) : Nat :=
  cols.findIdx (fun k => k == c)

/-- The cell a row holds in the given column. -/
def sortKey {V : Type} (cols : List String) (c : String) (row : List (Option V)) : Option V :=
  row.getD (colIndex cols c) Option.none

/-- Embedding of the sorting step of `add_values` (hyperopt.py lines
186–189): if a sort column is configured and present among the columns, the
whole collection is re-sorted by that column and re-indexed; otherwise it is
left unchanged.  `pandas.sort_values` produces a permutation of the rows that
is sorted under `cellLe`; it is modelled by insertion sort, which produces
such a permutation. -/
def sortDf {V : Type} (le : V → V → Bool) (sortCol : Option String) (asc : Bool)
    (st : DfState V) : DfState V :=
  match sortCol with
  | Option.none => st
  | some c =>
      if c ∈ st.cols then
        ⟨st.cols,
          List.insertionSort
            (fun r1 r2 => cellLe le asc (sortKey st.cols c r1) (sortKey st.cols c r2) = true)
            st.rows⟩
      else st

/-- Embedding of the first-call column setup of `add_values` (hyperopt.py
lines 163–175): the columns are the record's keys, with the sort column moved
to the front when present (a warning, and no move, otherwise). -/
def initCols (sortCol : Option String) (keys : List String) : List String :=
  match sortCol with
  | Option.none => keys
  | some c => if c ∈ keys then c :: keys.erase c else keys

/-- Embedding of `ParametersMetricsCollection.add_values` (hyperopt.py lines
155–191).  On the first call (df is `None`) the columns are fixed from the
record; on later calls every unseen record key becomes a new column and all
existing rows are back-filled with the missing-value marker
(`self.df[col] = None`).  The new row holds `values.get(c)` for each column
`c`, then the collection is re-sorted where applicable. -/
def addValues {V : Type} (le : V → V → Bool) (sortCol : Option String) (asc : Bool)
    (st : Option (DfState V)) (rec : List (String × V)) : DfState V :=
  match st with
  | Option.none =>
      let cols := initCols sortCol (rec.map Prod.fst)
      sortDf le sortCol asc ⟨cols, [cols.map (fun c => assocLookup rec c)]⟩
  | some st =>
      let newCols := (rec.map Prod.fst).filter (fun k => !(decide (k ∈ st.cols)))
      let cols := st.cols ++ newCols
      let padded := st.rows.map (fun r => r ++ newCols.map (fun _ => (Option.none : Option V)))
      sortDf le sortCol asc ⟨cols, padded ++ [cols.map (fun c => assocLookup rec c)]⟩

/-- A sequence of `add_values` calls on a freshly constructed collection
(df starts as `None`). -/
def addAllValues {V : Type} (le : V → V → Bool) (sortCol : Option String) (asc : Bool)
    (recs : List (List (String × V))) : Option (DfState V) :=
  recs.foldl (fun st r => some (addValues le sortCol asc st r)) Option.none

theorem sortDf_cols {V : Type} (le : V → V → Bool) (sortCol : Option String) (asc : Bool)
    (st : DfState V) : (sortDf le sortCol asc st).cols = st.cols := by
  cases sortCol with
  | none => rfl
  | some c =>
      rw [sortDf]
      by_cases hc : c ∈ st.cols
      · rw [if_pos hc]
      · rw [if_neg hc]

theorem sortDf_rows_perm {V : Type} (le : V → V → Bool) (sortCol : Option String) (asc : Bool)
    (st : DfState V) : (sortDf le sortCol asc st).rows.Perm st.rows := by
  cases sortCol with
  | none => exact List.Perm.refl _
  | some c =>
      rw [sortDf]
      by_cases hc : c ∈ st.cols
      · rw [if_pos hc]
        exact List.perm_insertionSort _ _
      · rw [if_neg hc]

theorem cellLe_total {V : Type} (le : V → V → Bool)
    (htot : ∀ x y, le x y = true ∨ le y x = true) (asc : Bool) (a b : Option V) :
    cellLe le asc a b = true ∨ cellLe le asc b a = true := by
  cases a with
  | none =>
      cases b with
      | none => left; rfl
      | some y => right; rfl
  | some x =>
      cases b with
      | none => left; rfl
      | some y =>
          cases asc with
          | true =>
              rcases htot x y with h | h
              · left; simpa [cellLe] using h
              · right; simpa [cellLe] using h
          | false =>
              rcases htot y x with h | h
              · left; simpa [cellLe] using h
              · right; simpa [cellLe] using h

theorem cellLe_trans {V : Type} (le : V → V → Bool)
    (htrans : ∀ x y z, le x y = true → le y z = true → le x z = true) (asc : Bool)
    (a b c : Option V) (hab : cellLe le asc a b = true) (hbc : cellLe le asc b c = true) :
    cellLe le asc a c = true := by
  cases c with
  | none =>
      cases a <;> rfl
  | some z =>
      cases b with
      | none => exact absurd hbc (by cases asc <;> simp [cellLe])
      | some y =>
          cases a with
          | none => exact absurd hab (by cases asc <;> simp [cellLe])
          | some x =>
              cases asc with
              | true =>
                  simp only [cellLe, if_true] at hab hbc ⊢
                  exact htrans x y z hab hbc
              | false =>
                  simp only [cellLe, if_false] at hab hbc ⊢
                  exact htrans z y x hbc hab

/-- The union of the key sets of a sequence of records, accumulated in call
order. -/
def recsKeyUnion {V : Type} (recs : List (List (String × V))) : Finset String :=
  recs.foldl (fun s r => s ∪ (r.map Prod.fst).toFinset) ∅

theorem foldl_union_acc_subset {V : Type} (recs : List (List (String × V)))
    (s : Finset String) :
    s ⊆ recs.foldl (fun s r => s ∪ (r.map Prod.fst).toFinset) s := by
  induction recs generalizing s with
  | nil => exact Finset.Subset.refl s
  | cons r rest ih =>
      rw [List.foldl_cons]
      exact Finset.Subset.trans Finset.subset_union_left (ih _)

theorem keys_subset_recsKeyUnion {V : Type} {recs : List (List (String × V))}
    {r : List (String × V)} (hr : r ∈ recs) :
    (r.map Prod.fst).toFinset ⊆ recsKeyUnion recs := by
  rw [recsKeyUnion]
  generalize (∅ : Finset String) = s
  induction recs generalizing s with
  | nil => cases hr
  | cons r0 rest ih =>
      rw [List.foldl_cons]
      rcases List.mem_cons.mp hr with rfl | hmem
      · exact Finset.Subset.trans Finset.subset_union_right (foldl_union_acc_subset rest _)
      · exact ih hmem _

theorem recsKeyUnion_append_singleton {V : Type} (recs : List (List (String × V)))
    (r : List (String × V)) :
    recsKeyUnion (recs ++ [r]) = recsKeyUnion recs ∪ (r.map Prod.fst).toFinset := by
  rw [recsKeyUnion, List.foldl_append, recsKeyUnion]
  rfl

theorem initCols_toFinset (sortCol : Option String) (keys : List String) :
    (initCols sortCol keys).toFinset = keys.toFinset := by
  cases sortCol with
  | none => rfl
  | some c =>
      rw [initCols]
      by_cases hc : c ∈ keys
      · rw [if_pos hc, List.toFinset_cons]
        ext a
        by_cases hac : a = c
        · subst hac
          simp [hc]
        · simp only [Finset.mem_insert, List.mem_toFinset, hac, false_or]
          rw [List.mem_erase_of_ne hac]
      · rw [if_neg hc]

/-- The state invariant of the collection after a sequence of `add_values`
calls: the column set is the union of the records' key sets, and the rows are
a permutation of the records' images under the columns — row cell at column
`c` is the record's value at `c`, or the missing-value marker when the record
lacks `c`. -/
def dfInvariant {V : Type} (recs : List (List (String × V))) (st : DfState V) : Prop :=
  st.cols.toFinset = recsKeyUnion recs
  ∧ st.rows.Perm (recs.map (fun r => st.cols.map (fun c => assocLookup r c)))

theorem dfInvariant_sortDf {V : Type} (le : V → V → Bool) (sortCol : Option String)
    (asc : Bool) {recs : List (List (String × V))} {st : DfState V}
    (h : dfInvariant recs st) : dfInvariant recs (sortDf le sortCol asc st) := by
  obtain ⟨ha, hb⟩ := h
  constructor
  · rw [sortDf_cols]
    exact ha
  · rw [sortDf_cols]
    exact List.Perm.trans (sortDf_rows_perm le sortCol asc st) hb

theorem addValues_step_invariant {V : Type} (le : V → V → Bool) (sortCol : Option String)
    (asc : Bool) (done : List (List (String × V))) (st0 : Option (DfState V))
    (rec : List (String × V))
    (h : st0 = Option.none ∧ done = [] ∨ ∃ s, st0 = some s ∧ dfInvariant done s) :
    dfInvariant (done ++ [rec]) (addValues le sortCol asc st0 rec) := by
  rcases h with ⟨rfl, rfl⟩ | ⟨s, rfl, hinv⟩
  · rw [addValues]
    apply dfInvariant_sortDf
    constructor
    · rw [initCols_toFinset, recsKeyUnion, List.nil_append]
      simp
    · simp
  · rw [addValues]
    apply dfInvariant_sortDf
    obtain ⟨ha, hb⟩ := hinv
    have hnewlookup : ∀ r ∈ done,
        ∀ c ∈ (rec.map Prod.fst).filter (fun k => !(decide (k ∈ s.cols))),
          assocLookup r c = (Option.none : Option V) := by
      intro r hr c hc
      obtain ⟨_, hcnot⟩ := List.mem_filter.mp hc
      rw [Bool.not_eq_true', decide_eq_false_iff_not] at hcnot
      apply assocLookup_eq_none_of_not_mem
      intro hcr
      apply hcnot
      rw [← List.mem_toFinset, ha]
      exact keys_subset_recsKeyUnion hr (List.mem_toFinset.mpr hcr)
    constructor
    · show (s.cols ++ (rec.map Prod.fst).filter (fun k => !(decide (k ∈ s.cols)))).toFinset = _
      rw [List.toFinset_append, recsKeyUnion_append_singleton, ← ha]
      ext a
      simp only [Finset.mem_union, List.mem_toFinset, List.mem_filter,
        Bool.not_eq_true', decide_eq_false_iff_not]
      tauto
    · dsimp only
      conv_rhs => rw [List.map_append]
      apply List.Perm.append
      · have hmap : List.map
              (fun r => List.map (fun c => assocLookup r c)
                (s.cols ++ (rec.map Prod.fst).filter (fun k => !(decide (k ∈ s.cols))))) done
            = List.map ((fun row => row ++ ((rec.map Prod.fst).filter
                  (fun k => !(decide (k ∈ s.cols)))).map
                    (fun _ => (Option.none : Option V))) ∘
                (fun r => s.cols.map (fun c => assocLookup r c))) done := by
          apply List.map_congr_left
          intro r hr
          simp only [Function.comp_apply, List.map_append]
          congr 1
          apply List.map_congr_left
          intro c hc
          exact hnewlookup r hr c hc
        rw [hmap, ← List.map_map]
        exact hb.map _
      · rw [List.map_cons, List.map_nil]

theorem addAllValues_invariant {V : Type} (le : V → V → Bool) (sortCol : Option String)
    (asc : Bool) :
    ∀ (todo done : List (List (String × V))) (st0 : Option (DfState V)) (st : DfState V),
    (st0 = Option.none ∧ done = [] ∨ ∃ s, st0 = some s ∧ dfInvariant done s) →
    todo.foldl (fun acc r => some (addValues le sortCol asc acc r)) st0 = some st →
    dfInvariant (done ++ todo) st := by
  intro todo
  induction todo with
  | nil =>
      intro done st0 st h hfold
      rw [List.foldl_nil] at hfold
      rcases h with ⟨rfl, rfl⟩ | ⟨s, rfl, hinv⟩
      · cases hfold
      · rw [List.append_nil]
        have hs := Option.some.inj hfold
        exact hs ▸ hinv
  | cons r rest ih =>
      intro done st0 st h hfold
      rw [List.foldl_cons] at hfold
      have hstep := addValues_step_invariant le sortCol asc done st0 r h
      have hres := ih (done ++ [r]) (some (addValues le sortCol asc st0 r)) st
        (Or.inr ⟨_, rfl, hstep⟩) hfold
      rwa [List.append_assoc, List.singleton_append] at hres

theorem addAllValues_last {V : Type} (le : V → V → Bool) (sortCol : Option String)
    (asc : Bool) :
    ∀ (recs : List (List (String × V))) (st0 : Option (DfState V)) (st : DfState V),
    recs.foldl (fun acc r => some (addValues le sortCol asc acc r)) st0 = some st →
    st0 = some st ∨ ∃ st1 rec, st = addValues le sortCol asc st1 rec := by
  intro recs
  induction recs with
  | nil =>
      intro st0 st h
      exact Or.inl h
  | cons r rest ih =>
      intro st0 st h
      rw [List.foldl_cons] at h
      rcases ih _ _ h with heq | hex
      · exact Or.inr ⟨st0, r, (Option.some.inj heq).symm⟩
      · exact Or.inr hex

theorem sortDf_sorted {V : Type} (le : V → V → Bool) (c : String) (asc : Bool)
    (st : DfState V)
    (htot : ∀ x y, le x y = true ∨ le y x = true)
    (htrans : ∀ x y z, le x y = true → le y z = true → le x z = true)
    (hc : c ∈ st.cols) :
    List.Sorted (fun r1 r2 => cellLe le asc
        (sortKey (sortDf le (some c) asc st).cols c r1)
        (sortKey (sortDf le (some c) asc st).cols c r2) = true)
      (sortDf le (some c) asc st).rows := by
  rw [sortDf, if_pos hc]
  dsimp only
  letI instTot : IsTotal (List (Option V))
      (fun r1 r2 => cellLe le asc (sortKey st.cols c r1) (sortKey st.cols c r2) = true) :=
    ⟨fun a b => cellLe_total le htot asc _ _⟩
  letI instTrans : IsTrans (List (Option V))
      (fun r1 r2 => cellLe le asc (sortKey st.cols c r1) (sortKey st.cols c r2) = true) :=
    ⟨fun a b d hab hbd => cellLe_trans le htrans asc _ _ _ hab hbd⟩
  exact List.sorted_insertionSort _ _

theorem addValues_sorted {V : Type} (le : V → V → Bool) (c : String) (asc : Bool)
    (st0 : Option (DfState V)) (rec : List (String × V))
    (htot : ∀ x y, le x y = true ∨ le y x = true)
    (htrans : ∀ x y z, le x y = true → le y z = true → le x z = true)
    (hc : c ∈ (addValues le (some c) asc st0 rec).cols) :
    List.Sorted (fun r1 r2 => cellLe le asc
        (sortKey (addValues le (some c) asc st0 rec).cols c r1)
        (sortKey (addValues le (some c) asc st0 rec).cols c r2) = true)
      (addValues le (some c) asc st0 rec).rows := by
  cases st0 with
  | none =>
      simp only [addValues] at hc ⊢
      rw [sortDf_cols] at hc
      exact sortDf_sorted le c asc _ htot htrans hc
  | some s =>
      simp only [addValues] at hc ⊢
      rw [sortDf_cols] at hc
      exact sortDf_sorted le c asc _ htot htrans hc

/-- Claim C8: after every sequence of `add_values` calls, if the configured
sort column is present among the columns then the rows are sorted by that
column (non-decreasing for ascending, non-increasing otherwise, with
missing-value cells last); the column set equals the union of all added
records' keys; and the rows are (a permutation of) the records' images under
the columns, so any row cell in a column its record lacks — in particular a
later-introduced column — carries the missing-value marker. -/
theorem C8_add_values_sorted_growable_schema {V : Type} (le : V → V → Bool)
    (sortCol : String) (asc : Bool) (recs : List (List (String × V))) (st : DfState V)
    (htot : ∀ x y, le x y = true ∨ le y x = true)
    (htrans : ∀ x y z, le x y = true → le y z = true → le x z = true)
    (hst : addAllValues le (some sortCol) asc recs = some st) :
    (sortCol ∈ st.cols →
      List.Sorted (fun r1 r2 => cellLe le asc (sortKey st.cols sortCol r1)
        (sortKey st.cols sortCol r2) = true) st.rows)
    ∧ st.cols.toFinset = recsKeyUnion recs
    ∧ st.rows.Perm (recs.map (fun r => st.cols.map (fun c => assocLookup r c)))
    ∧ (∀ row ∈ st.rows, ∃ rec ∈ recs, row = st.cols.map (fun c => assocLookup rec c)) := by
  have hinv : dfInvariant recs st := by
    have h0 := addAllValues_invariant le (some sortCol) asc recs [] Option.none st
      (Or.inl ⟨rfl, rfl⟩) hst
    rwa [List.nil_append] at h0
  obtain ⟨ha, hb⟩ := hinv
  refine ⟨?_, ha, hb, ?_⟩
  · intro hc
    rcases addAllValues_last le (some sortCol) asc recs Option.none st hst with heq | ⟨st1, rec, rfl⟩
    · cases heq
    · exact addValues_sorted le sortCol asc st1 rec htot htrans hc
  · intro row hrow
    obtain ⟨rec, hrec, heq⟩ := List.mem_map.mp (hb.mem_iff.mp hrow)
    exact ⟨rec, hrec, heq.symm⟩

/-- Integer comparison used to instantiate the sort order of the collection. -/
def intLe (x y : Int) : Bool :=
  decide (x ≤ y)

/-- Concrete records for the collection witness: the second record introduces
a new column `"q"` and lacks the earlier column `"p"`. -/
def exampleRecs : List (List (String × Int)) :=
  [[("m", 2), ("p", 1)], [("m", 1), ("q", 5)]]

/-- The collection state after adding `exampleRecs` with sort column `"m"`
ascending: columns `["m", "p", "q"]`, rows sorted by `"m"` with missing-value
markers where a record lacks a column. -/
def exampleDf : DfState Int :=
  ⟨["m", "p", "q"],
    [[some 1, Option.none, some 5], [some 2, some 1, Option.none]]⟩

theorem C8_witness :
    exampleDf.cols.toFinset = recsKeyUnion exampleRecs :=
  (C8_add_values_sorted_growable_schema intLe "m" true exampleRecs exampleDf
    (fun x y => by
      simp only [intLe, decide_eq_true_eq]
      exact le_total x y)
    (fun x y z hxy hyz => by
      simp only [intLe, decide_eq_true_eq] at hxy hyz ⊢
      exact le_trans hxy hyz)
    (by rfl)).2.1
